import Mathlib

/-!
Verification of the core services of the WADe-2025 alert system:
the publish/subscribe broker (`asc/services/pubsub.py`), the WebSub hub
(`asc/services/websub.py`) and the smart cache proxy
(`asc/services/cache_proxy.py`), shallowly embedded in Lean.

Python dictionaries are embedded as update functions or association lists,
Python sets as lists with membership semantics, `datetime.now()` as an
explicit `Nat` timestamp parameter, and network calls as explicit
response/outcome parameters.
-/

/-! ## Basic helpers: Python string and collection operations -/

/-- Python `str.split(".")`: split a string at every dot.  Implemented over
the character list so that all proofs are by computation. -/
def splitDots (s : String) : List String :=
  (s.toList.splitOn '.').map (fun l => String.mk l)

/-- Python `".".join(parts)`. -/
def joinDots (parts : List String) : String :=
  String.mk (List.intercalate ['.'] (parts.map String.toList))

/-- Python `s.startswith(p)`. -/
def pyStartsWith (s p : String) : Bool :=
  p.toList.isPrefixOf s.toList

/-- Python `s.endswith(".*")`. -/
def endsWithDotStar (s : String) : Bool :=
  s.toList.reverse.take 2 == ['*', '.']

/-- Python `s[:-2]`. -/
def dropLast2 (s : String) : String :=
  String.mk (s.toList.dropLast.dropLast)

/-- The whitespace characters stripped by Python `str.strip()`. -/
def pyIsSpace (c : Char) : Bool :=
  c == ' ' || c == '\t' || c == '\n' || c == '\r' || c == '\x0b' || c == '\x0c'

/-- Python `str.strip()`: remove leading and trailing whitespace. -/
def pyStrip (s : String) : String :=
  String.mk (((s.toList.dropWhile pyIsSpace).reverse.dropWhile pyIsSpace).reverse)

/-- `set.add`: append an element unless already present (membership set). -/
def addElem (l : List String) (x : String) : List String :=
  if x ∈ l then l else l ++ [x]

/-- `set.update`: union of two element lists (membership set). -/
def unionL (a b : List String) : List String :=
  a ++ b.filter (fun x => !a.contains x)

/-! ## Python values

Payloads, filter values and cached values are embedded as a small universe
of Python values: `None`, scalars (strings, integers, booleans) and flat
lists of scalars, which is what the program's payloads and filters use. -/

inductive Scalar where
  | str (s : String)
  | int (n : Int)
  | bool (b : Bool)
  deriving DecidableEq, Repr

inductive PyVal where
  /-- Python `None`. -/
  | vnone
  | scalar (s : Scalar)
  | list (l : List Scalar)
  deriving DecidableEq, Repr

/-! ## PubSub broker (`asc/services/pubsub.py`) -/

/-- `Message` dataclass: the derived `message_id` hash is not modelled
(it is never consulted by the operations under verification). -/
structure Message where
  topic : String
  payload : List (String × PyVal)
  timestamp : Nat
  deriving DecidableEq, Repr

/-- `Subscriber` dataclass.  The callback is identified by the subscriber id;
`created_at` is not consulted by any operation. -/
structure Subscriber where
  topics : List String
  filters : List (String × PyVal)
  deriving DecidableEq, Repr

/-- `PubSubService` state: `_subscribers` and `_topic_subscribers` are
dictionaries, embedded as functions; `_topic_subscribers` is a
`defaultdict(set)`, so absent keys read as the empty set. -/
structure BrokerState where
  subscribers : String → Option Subscriber
  topicSubs : String → List String
  history : List Message
  maxHistory : Nat

/-- `PubSubService.TOPICS` (keys, in source order). -/
def TOPICS : List String :=
  ["alerts.all", "alerts.critical", "alerts.high", "alerts.cms",
   "alerts.framework", "alerts.plugin", "alerts.shopping_cart",
   "alerts.forum", "alerts.sqli", "alerts.xss", "alerts.rce"]

/-- `PubSubService.__init__` (default `max_history=1000`). -/
def brokerInit : BrokerState :=
  { subscribers := fun _ => none
    topicSubs := fun _ => []
    history := []
    maxHistory := 1000 }

/-- Add `sid` to `_topic_subscribers[t]`. -/
def indexAdd (m : String → List String) (t sid : String) : String → List String :=
  fun u => if u = t then addElem (m t) sid else m u

/-- The body of the `for topic in topics` loop of `PubSubService.subscribe`:
register under `topic`, and when the topic ends in `.*` also register under
every predefined topic sharing the base prefix. -/
def subscribeStep (sid : String) (m : String → List String) (t : String) :
    String → List String :=
  let m1 := indexAdd m t sid
  if endsWithDotStar t then
    TOPICS.foldl
      (fun acc et => if pyStartsWith et (dropLast2 t) then indexAdd acc et sid else acc)
      m1
  else m1

/-- `PubSubService.subscribe` (always returns `True`; the state effect). -/
def subscribe (st : BrokerState) (sid : String) (topics : List String)
    (filters : List (String × PyVal)) : BrokerState :=
  { st with
    subscribers := fun s =>
      if s = sid then some { topics := topics, filters := filters }
      else st.subscribers s
    topicSubs := topics.foldl (subscribeStep sid) st.topicSubs }

/-- Remove `sid` from `_topic_subscribers[t]` (`set.discard`). -/
def indexDiscard (m : String → List String) (t sid : String) : String → List String :=
  fun u => if u = t then (m t).filter (fun x => x ≠ sid) else m u

/-- `PubSubService.unsubscribe`: returns `False` and leaves the state intact
for an unknown subscriber; otherwise removes the given topics (all topics
when `none`) from both the subscriber's topic set and the index, and deletes
the subscriber once its topic set is empty. -/
def unsubscribe (st : BrokerState) (sid : String) (topics : Option (List String)) :
    Bool × BrokerState :=
  match st.subscribers sid with
  | none => (false, st)
  | some sub =>
    let ts := topics.getD sub.topics
    let newTopics := sub.topics.filter (fun t => !ts.contains t)
    (true,
      { st with
        subscribers := fun s =>
          if s = sid then
            if newTopics.isEmpty then none else some { sub with topics := newTopics }
          else st.subscribers s
        topicSubs := ts.foldl (fun m t => indexDiscard m t sid) st.topicSubs })

/-- The wildcard patterns probed by `PubSubService._deliver_message`:
`".".join(parts[:i+1]) + ".*"` for every prefix of the dot-split topic. -/
def wildcardPatterns (topic : String) : List String :=
  let parts := splitDots topic
  (List.range parts.length).map (fun i => joinDots (parts.take (i + 1)) ++ ".*")

/-- The recipient id set collected by `PubSubService._deliver_message`:
exact-topic subscribers, wildcard-pattern subscribers, and `alerts.all`
subscribers when the topic is in the alerts namespace. -/
def recipients (st : BrokerState) (topic : String) : List String :=
  let base := st.topicSubs topic
  let withWild := (wildcardPatterns topic).foldl (fun acc p => unionL acc (st.topicSubs p)) base
  if pyStartsWith topic "alerts." then unionL withWild (st.topicSubs "alerts.all")
  else withWild

/-- `PubSubService._matches_filters`. -/
def matchesFilters (payload : List (String × PyVal)) (filters : List (String × PyVal)) :
    Bool :=
  filters.all (fun kv =>
    match payload.lookup kv.1 with
    | none => false
    | some pv =>
      match kv.2 with
      | PyVal.list l =>
        match pv with
        | PyVal.scalar s => l.contains s
        | _ => false
      | v => pv == v)

/-- The subscriber ids `PubSubService._deliver_message` actually delivers to:
recipients that still exist in `_subscribers` and whose filters match. -/
def deliveredTo (st : BrokerState) (topic : String)
    (payload : List (String × PyVal)) : List String :=
  (recipients st topic).filter (fun sid =>
    match st.subscribers sid with
    | some sub => matchesFilters payload sub.filters
    | none => false)

/-- `PubSubService.get_history`.  Python truthiness: an absent or empty topic
string applies no topic filter; `messages[-limit:]` is the whole list when
`limit` is `0`. -/
def getHistory (st : BrokerState) (topic : Option String) (since : Option Nat)
    (limit : Nat) : List Message :=
  let ms := st.history
  let ms := match topic with
    | some t => if t ≠ "" then ms.filter (fun m => m.topic == t || t == "alerts.all") else ms
    | none => ms
  let ms := match since with
    | some s => ms.filter (fun m => decide (s ≤ m.timestamp))
    | none => ms
  if limit = 0 then ms else ms.drop (ms.length - limit)

/-- A subscribe/unsubscribe request against the broker. -/
inductive BOp where
  | sub (sid : String) (topics : List String) (filters : List (String × PyVal))
  | unsub (sid : String) (topics : Option (List String))
  deriving Repr

def applyBOp (st : BrokerState) : BOp → BrokerState
  | BOp.sub sid topics filters => subscribe st sid topics filters
  | BOp.unsub sid topics => (unsubscribe st sid topics).2

def runBroker (st : BrokerState) : List BOp → BrokerState
  | [] => st
  | op :: ops => runBroker (applyBOp st op) ops

/-- Mutual consistency of the broker's topic index and the subscribers'
own topic sets: the index never holds an id under a topic the subscriber's
topic set does not include (dangling ids of deleted subscribers included). -/
def Consistent (st : BrokerState) : Prop :=
  ∀ t sid, sid ∈ st.topicSubs t →
    ∃ sub, st.subscribers sid = some sub ∧ t ∈ sub.topics


/-! ### Membership lemmas for the broker index -/

theorem mem_addElem {l : List String} {x y : String} :
    y ∈ addElem l x ↔ y ∈ l ∨ y = x := by
  by_cases h : x ∈ l
  · simp only [addElem, if_pos h]
    constructor
    · exact Or.inl
    · rintro (hy | rfl)
      · exact hy
      · exact h
  · simp [addElem, if_neg h]

theorem mem_indexAdd {m : String → List String} {t sid u x : String} :
    x ∈ indexAdd m t sid u ↔ x ∈ m u ∨ (x = sid ∧ u = t) := by
  unfold indexAdd
  by_cases h : u = t
  · subst h; simp [mem_addElem]
  · simp [h]

theorem mem_subscribeStep {m : String → List String} {sid t u x : String}
    (hw : endsWithDotStar t = false) :
    x ∈ subscribeStep sid m t u ↔ x ∈ m u ∨ (x = sid ∧ u = t) := by
  unfold subscribeStep
  simp only [hw, Bool.false_eq_true, if_false]
  exact mem_indexAdd

theorem mem_foldl_subscribeStep {topics : List String} {sid u x : String} :
    ∀ {m : String → List String}, (∀ t ∈ topics, endsWithDotStar t = false) →
      (x ∈ (topics.foldl (subscribeStep sid) m) u ↔ x ∈ m u ∨ (x = sid ∧ u ∈ topics)) := by
  induction topics with
  | nil => intro m _; simp
  | cons t ts ih =>
    intro m hw
    simp only [List.foldl_cons]
    rw [ih (fun t' ht' => hw t' (List.mem_cons_of_mem _ ht')),
      mem_subscribeStep (hw t (List.mem_cons_self _ _))]
    simp only [List.mem_cons]
    tauto

theorem mem_indexDiscard {m : String → List String} {t sid u x : String} :
    x ∈ indexDiscard m t sid u ↔ x ∈ m u ∧ ¬(x = sid ∧ u = t) := by
  unfold indexDiscard
  by_cases h : u = t
  · subst h; simp [List.mem_filter]
  · simp [h]

theorem mem_foldl_indexDiscard {ts : List String} {sid u x : String} :
    ∀ {m : String → List String},
      (x ∈ (ts.foldl (fun m t => indexDiscard m t sid) m) u ↔
        x ∈ m u ∧ ¬(x = sid ∧ u ∈ ts)) := by
  induction ts with
  | nil => intro m; simp
  | cons t ts ih =>
    intro m
    simp only [List.foldl_cons]
    rw [ih, mem_indexDiscard]
    simp only [List.mem_cons]
    tauto

/-! ### C1: index/topic-set consistency -/

theorem subscribe_consistent {st : BrokerState} {sid : String} {topics : List String}
    {filters : List (String × PyVal)} (hc : Consistent st)
    (hfresh : st.subscribers sid = none)
    (hw : ∀ t ∈ topics, endsWithDotStar t = false) :
    Consistent (subscribe st sid topics filters) := by
  intro t x hmem
  simp only [subscribe] at hmem ⊢
  rw [mem_foldl_subscribeStep hw] at hmem
  rcases hmem with hold | ⟨rfl, ht⟩
  · obtain ⟨sub, hs, hts⟩ := hc t x hold
    refine ⟨sub, ?_, hts⟩
    have hne : x ≠ sid := by
      rintro rfl
      rw [hfresh] at hs
      exact Option.noConfusion hs
    simp [hne, hs]
  · exact ⟨{ topics := topics, filters := filters }, by simp, ht⟩

theorem unsubscribe_consistent {st : BrokerState} {sid : String}
    {topics : Option (List String)} (hc : Consistent st) :
    Consistent (unsubscribe st sid topics).2 := by
  unfold unsubscribe
  cases hsub : st.subscribers sid with
  | none => exact hc
  | some sub =>
    intro t x hmem
    simp only at hmem ⊢
    rw [mem_foldl_indexDiscard] at hmem
    obtain ⟨hold, hnot⟩ := hmem
    obtain ⟨sub', hs, hts⟩ := hc t x hold
    by_cases hx : x = sid
    · subst hx
      rw [hsub] at hs
      have hss : sub' = sub := (Option.some.inj hs).symm
      rw [hss] at hts
      have htnotin : t ∉ topics.getD sub.topics := fun h => hnot ⟨rfl, h⟩
      have htnew : t ∈ sub.topics.filter (fun t' => !(topics.getD sub.topics).contains t') := by
        rw [List.mem_filter]
        refine ⟨hts, ?_⟩
        simp only [Bool.not_eq_true', ← Bool.not_eq_true]
        intro hcontains
        exact htnotin (List.mem_of_elem_eq_true hcontains)
      have hnonempty :
          (sub.topics.filter (fun t' => !(topics.getD sub.topics).contains t')).isEmpty = false := by
        rcases h : sub.topics.filter (fun t' => !(topics.getD sub.topics).contains t') with _ | _
        · rw [h] at htnew; exact absurd htnew (List.not_mem_nil t)
        · simp [List.isEmpty]
      refine ⟨{ sub with topics := sub.topics.filter (fun t' => !(topics.getD sub.topics).contains t') }, ?_, htnew⟩
      simp [hnonempty]
      exact ⟨t, hts, htnotin⟩
    · exact ⟨sub', by simp [hx, hs], hts⟩

/-- Which broker requests keep the claimed invariant provable: a subscribe
must use a fresh subscriber id and no wildcard topics; any unsubscribe is
fine. -/
def GoodOp (st : BrokerState) : BOp → Prop
  | BOp.sub sid topics _ =>
      st.subscribers sid = none ∧ ∀ t ∈ topics, endsWithDotStar t = false
  | BOp.unsub _ _ => True

def GoodRun : BrokerState → List BOp → Prop
  | _, [] => True
  | st, op :: ops => GoodOp st op ∧ GoodRun (applyBOp st op) ops

theorem runBroker_consistent :
    ∀ (ops : List BOp) (st : BrokerState), Consistent st → GoodRun st ops →
      Consistent (runBroker st ops) := by
  intro ops
  induction ops with
  | nil => intro st hc _; exact hc
  | cons op ops ih =>
    intro st hc hg
    obtain ⟨hop, hops⟩ := hg
    refine ih _ ?_ hops
    cases op with
    | sub sid topics filters => exact subscribe_consistent hc hop.1 hop.2
    | unsub sid topics => exact unsubscribe_consistent hc

/-- C1 counterexample: after `subscribe("s", ["alerts.*"])`, the wildcard
expansion registers `"s"` in the index under `"alerts.all"` (and every other
predefined alerts topic) while the subscriber's own topic set stays
`{"alerts.*"}`, so the claimed mutual consistency fails. -/
theorem wildcard_subscribe_violates_index_consistency :
    ¬ Consistent (subscribe brokerInit "s" ["alerts.*"] []) := by
  intro h
  obtain ⟨sub, hs, hmem⟩ := h "alerts.all" "s" (by decide)
  have heq : (subscribe brokerInit "s" ["alerts.*"] []).subscribers "s" =
      some { topics := ["alerts.*"], filters := [] } := by decide
  rw [heq] at hs
  have hsub : sub = { topics := ["alerts.*"], filters := [] } := (Option.some.inj hs).symm
  rw [hsub] at hmem
  exact absurd hmem (by decide)

/-- C1 (amended): for every sequence of broker requests in which each
subscribe registers a fresh subscriber id and uses no wildcard (`.*`) topic,
and unsubscribes are arbitrary, the topic index and the subscribers' topic
sets stay mutually consistent.  (A wildcard subscribe or a re-subscribe of
an existing id can leave index entries for topics outside the subscriber's
topic set.) -/
theorem index_consistency_for_fresh_plain_subscriptions
    (ops : List BOp) (hg : GoodRun brokerInit ops) :
    Consistent (runBroker brokerInit ops) :=
  runBroker_consistent ops brokerInit (fun t sid h => by simp [brokerInit] at h) hg

theorem index_consistency_for_fresh_plain_subscriptions_witness :
    GoodRun brokerInit [BOp.sub "a" ["alerts.cms"] [], BOp.unsub "a" none] ∧
      Consistent (runBroker brokerInit [BOp.sub "a" ["alerts.cms"] [], BOp.unsub "a" none]) := by
  have hg : GoodRun brokerInit [BOp.sub "a" ["alerts.cms"] [], BOp.unsub "a" none] := by
    exact ⟨⟨rfl, by decide⟩, trivial, trivial⟩
  exact ⟨hg, index_consistency_for_fresh_plain_subscriptions _ hg⟩

/-! ### C5: routing of published messages -/

theorem mem_unionL {a b : List String} {x : String} :
    x ∈ unionL a b ↔ x ∈ a ∨ x ∈ b := by
  unfold unionL
  rw [List.mem_append, List.mem_filter]
  by_cases ha : x ∈ a
  · simp [ha]
  · simp [ha]

theorem mem_foldl_unionL {ps : List String} {m : String → List String} {x : String} :
    ∀ {base : List String},
      (x ∈ ps.foldl (fun acc p => unionL acc (m p)) base ↔ x ∈ base ∨ ∃ p ∈ ps, x ∈ m p) := by
  induction ps with
  | nil => intro base; simp
  | cons p ps ih =>
    intro base
    simp only [List.foldl_cons]
    rw [ih, mem_unionL]
    simp only [List.mem_cons]
    constructor
    · rintro (⟨h | h⟩ | ⟨q, hq, hxq⟩)
      · exact Or.inl h
      · exact Or.inr ⟨p, Or.inl rfl, h⟩
      · exact Or.inr ⟨q, Or.inr hq, hxq⟩
    · rintro (h | ⟨q, (rfl | hq), hxq⟩)
      · exact Or.inl (Or.inl h)
      · exact Or.inl (Or.inr hxq)
      · exact Or.inr ⟨q, hq, hxq⟩

theorem mem_recipients {st : BrokerState} {topic x : String} :
    x ∈ recipients st topic ↔
      x ∈ st.topicSubs topic ∨ (∃ p ∈ wildcardPatterns topic, x ∈ st.topicSubs p) ∨
        (pyStartsWith topic "alerts." = true ∧ x ∈ st.topicSubs "alerts.all") := by
  unfold recipients
  by_cases h : pyStartsWith topic "alerts." = true
  · rw [if_pos h, mem_unionL, mem_foldl_unionL]
    simp only [h, true_and]
    constructor
    · rintro ((h1 | h2) | h3)
      · exact Or.inl h1
      · exact Or.inr (Or.inl h2)
      · exact Or.inr (Or.inr h3)
    · rintro (h1 | h2 | h3)
      · exact Or.inl (Or.inl h1)
      · exact Or.inl (Or.inr h2)
      · exact Or.inr h3
  · rw [if_neg h, mem_foldl_unionL]
    simp [h]

theorem mem_deliveredTo {st : BrokerState} {topic : String}
    {payload : List (String × PyVal)} {sid : String} :
    sid ∈ deliveredTo st topic payload ↔
      sid ∈ recipients st topic ∧
        ∃ sub, st.subscribers sid = some sub ∧ matchesFilters payload sub.filters = true := by
  unfold deliveredTo
  rw [List.mem_filter]
  cases h : st.subscribers sid with
  | none => simp [h]
  | some sub => simp [h]

/-- The broker state after `subscribe("s1", ["alerts.cms.*"])` followed by
`unsubscribe("s1", ["alerts.cms"])`: the subscriber remains registered in the
index only under the pattern `"alerts.cms.*"`. -/
def c5State : BrokerState :=
  (unsubscribe (subscribe brokerInit "s1" ["alerts.cms.*"] []) "s1" (some ["alerts.cms"])).2

/-- C5 counterexample: a subscriber registered in the index only under the
pattern `"alerts.cms.*"` — not under `"alerts.cms"`, `"alerts.*"` or
`"alerts.all"` — still receives a message published to `"alerts.cms"`,
because delivery probes every prefix pattern including the full topic
followed by `.*`. -/
theorem pattern_subscriber_outside_claimed_topics_receives :
    "s1" ∈ deliveredTo c5State "alerts.cms" [] ∧
      "s1" ∉ c5State.topicSubs "alerts.cms" ∧
      "s1" ∉ c5State.topicSubs "alerts.*" ∧
      "s1" ∉ c5State.topicSubs "alerts.all" := by
  refine ⟨by decide, by decide, by decide, by decide⟩

/-- C5 (amended): for every broker state, a message on topic `T` is
delivered exactly to the still-registered, filter-matching subscribers found
under the exact topic, under any wildcard pattern `p₁.….pᵢ.*` built from a
prefix of `T`'s dot-parts (including the full topic followed by `.*`), or
under `alerts.all` when `T` is in the alerts namespace; for
`T = "alerts.cms"` these index keys are exactly `"alerts.cms"`,
`"alerts.*"`, `"alerts.cms.*"` and `"alerts.all"`. -/
theorem delivered_set_characterization :
    (∀ (st : BrokerState) (topic : String) (payload : List (String × PyVal)) (sid : String),
      sid ∈ deliveredTo st topic payload ↔
        ((∃ sub, st.subscribers sid = some sub ∧ matchesFilters payload sub.filters = true) ∧
          (sid ∈ st.topicSubs topic ∨ (∃ p ∈ wildcardPatterns topic, sid ∈ st.topicSubs p) ∨
            (pyStartsWith topic "alerts." = true ∧ sid ∈ st.topicSubs "alerts.all")))) ∧
    (∀ (st : BrokerState) (payload : List (String × PyVal)) (sid : String),
      sid ∈ deliveredTo st "alerts.cms" payload ↔
        ((∃ sub, st.subscribers sid = some sub ∧ matchesFilters payload sub.filters = true) ∧
          (sid ∈ st.topicSubs "alerts.cms" ∨ sid ∈ st.topicSubs "alerts.*" ∨
            sid ∈ st.topicSubs "alerts.cms.*" ∨ sid ∈ st.topicSubs "alerts.all"))) := by
  have key : ∀ (st : BrokerState) (topic : String) (payload : List (String × PyVal)) (sid : String),
      sid ∈ deliveredTo st topic payload ↔
        ((∃ sub, st.subscribers sid = some sub ∧ matchesFilters payload sub.filters = true) ∧
          (sid ∈ st.topicSubs topic ∨ (∃ p ∈ wildcardPatterns topic, sid ∈ st.topicSubs p) ∨
            (pyStartsWith topic "alerts." = true ∧ sid ∈ st.topicSubs "alerts.all"))) := by
    intro st topic payload sid
    rw [mem_deliveredTo, mem_recipients]
    exact and_comm
  refine ⟨key, fun st payload sid => ?_⟩
  have hw : wildcardPatterns "alerts.cms" = ["alerts.*", "alerts.cms.*"] := by decide
  have hs : pyStartsWith "alerts.cms" "alerts." = true := by decide
  rw [key, hw, hs]
  simp only [List.mem_cons, List.not_mem_nil, or_false, true_and, exists_eq_or_imp,
    exists_eq_left]
  tauto

/-- A broker state with a single subscriber `"w"` registered under the
wildcard pattern `"alerts.*"`. -/
def c5WitnessState : BrokerState :=
  { subscribers := fun s => if s = "w" then some { topics := ["alerts.*"], filters := [] } else none
    topicSubs := fun t => if t = "alerts.*" then ["w"] else []
    history := []
    maxHistory := 1000 }

theorem delivered_set_characterization_witness :
    "w" ∈ deliveredTo c5WitnessState "alerts.cms" [] :=
  (delivered_set_characterization.2 c5WitnessState [] "w").mpr
    ⟨⟨{ topics := ["alerts.*"], filters := [] }, by decide, by decide⟩,
      Or.inr (Or.inl (by decide))⟩

/-! ### C6: filter matching -/

theorem matchesFilters_entry (payload : List (String × PyVal)) (k : String) (v : PyVal) :
    ((match payload.lookup k with
      | none => false
      | some pv =>
        match v with
        | PyVal.list l =>
          match pv with
          | PyVal.scalar s => l.contains s
          | _ => false
        | v' => pv == v') = true) ↔
      (∃ pv, payload.lookup k = some pv ∧
        (match v with
         | PyVal.list l => ∃ s, pv = PyVal.scalar s ∧ s ∈ l
         | v' => pv = v')) := by
  cases hl : payload.lookup k with
  | none => simp
  | some pv =>
    cases v with
    | vnone => cases pv <;> simp
    | scalar s => cases pv <;> simp
    | list l => cases pv <;> simp

/-- C6: a subscriber's filters pass a payload exactly when every filter key
is present in the payload and the payload value matches the filter value —
by membership when the filter value is a list, by equality otherwise; a
mismatch merely yields `false` (excluding that subscriber), with no other
effect. -/
theorem matches_filters_characterization
    (payload filters : List (String × PyVal)) :
    matchesFilters payload filters = true ↔
      ∀ kv ∈ filters, ∃ pv, payload.lookup kv.1 = some pv ∧
        (match kv.2 with
         | PyVal.list l => ∃ s, pv = PyVal.scalar s ∧ s ∈ l
         | v' => pv = v') := by
  unfold matchesFilters
  rw [List.all_eq_true]
  constructor
  · intro h kv hkv
    exact (matchesFilters_entry payload kv.1 kv.2).mp (h kv hkv)
  · intro h kv hkv
    exact (matchesFilters_entry payload kv.1 kv.2).mpr (h kv hkv)

theorem matches_filters_characterization_witness :
    matchesFilters [("severity", PyVal.scalar (Scalar.str "critical"))]
        [("severity", PyVal.list [Scalar.str "critical", Scalar.str "high"])] = true ∧
      matchesFilters [("severity", PyVal.scalar (Scalar.str "low"))]
        [("severity", PyVal.list [Scalar.str "critical", Scalar.str "high"])] = false ∧
      ∀ kv ∈ [("severity", PyVal.list [Scalar.str "critical", Scalar.str "high"])],
        ∃ pv, [("severity", PyVal.scalar (Scalar.str "critical"))].lookup kv.1 = some pv ∧
          (match kv.2 with
           | PyVal.list l => ∃ s, pv = PyVal.scalar s ∧ s ∈ l
           | v' => pv = v') :=
  ⟨by decide, by decide,
    (matches_filters_characterization
      [("severity", PyVal.scalar (Scalar.str "critical"))]
      [("severity", PyVal.list [Scalar.str "critical", Scalar.str "high"])]).mp (by decide)⟩

/-! ### C10: history for the catch-all topic -/

/-- C10: with a positive limit, `get_history("alerts.all")` returns the most
recent `limit` messages of the whole history — every topic included, newest
last — because the topic filter passes every message when the requested
topic is `"alerts.all"`. -/
theorem get_history_alerts_all (st : BrokerState) (limit : Nat) (h : 0 < limit) :
    getHistory st (some "alerts.all") none limit =
        st.history.drop (st.history.length - limit) ∧
      (getHistory st (some "alerts.all") none limit).length ≤ limit := by
  unfold getHistory
  simp only []
  have hfilter :
      st.history.filter (fun m => m.topic == "alerts.all" || "alerts.all" == "alerts.all") =
        st.history := by
    rw [List.filter_eq_self]
    intro a _
    simp
  rw [if_pos (show ("alerts.all" : String) ≠ "" by decide), hfilter,
    if_neg (Nat.pos_iff_ne_zero.mp h)]
  refine ⟨rfl, ?_⟩
  rw [List.length_drop]
  omega

theorem get_history_alerts_all_witness :
    0 < 1 ∧
      getHistory
        { brokerInit with
          history := [{ topic := "alerts.cms", payload := [], timestamp := 1 },
                      { topic := "alerts.xss", payload := [], timestamp := 2 }] }
        (some "alerts.all") none 1 =
        [{ topic := "alerts.xss", payload := [], timestamp := 2 }] := by
  refine ⟨by decide, ?_⟩
  rw [(get_history_alerts_all
    { brokerInit with
      history := [{ topic := "alerts.cms", payload := [], timestamp := 1 },
                  { topic := "alerts.xss", payload := [], timestamp := 2 }] } 1 (by decide)).1]
  decide

/-! ## WebSub hub (`asc/services/websub.py`)

The hub's `_subscriptions` is a dict of dicts (topic → callback URL →
subscription); the outer dict is embedded as a function, the inner one as an
association list so that subscriber counts (`len`) are computable.  HTTP
round-trips (the verification GET and the delivery POST) are embedded as
explicit outcome parameters. -/

/-- Python `dict[k] = v` on an association list: replace in place or append. -/
def insertA {α : Type} : List (String × α) → String → α → List (String × α)
  | [], k, v => [(k, v)]
  | p :: t, k, v => if p.1 = k then (k, v) :: t else p :: insertA t k v

/-- Python `dict.pop(k, None)` (the removal effect): drop the entry for `k`. -/
def eraseA {α : Type} : List (String × α) → String → List (String × α)
  | [], _ => []
  | p :: t, k => if p.1 = k then t else p :: eraseA t k

/-- `WebSubSubscription` dataclass (the random `verification_token` is not
modelled: the challenge of `_verify_subscription` is freshly generated and
passed explicitly). -/
structure WSub where
  callbackUrl : String
  topic : String
  secret : Option String
  leaseSeconds : Nat
  createdAt : Nat
  verified : Bool
  deriving DecidableEq, Repr

/-- `WebSubSubscription.expires_at`. -/
def WSub.expiresAt (s : WSub) : Nat := s.createdAt + s.leaseSeconds

/-- `WebSubSubscription.is_expired`: `now > expires_at`. -/
def WSub.isExpired (s : WSub) (now : Nat) : Bool := decide (s.expiresAt < now)

/-- The per-topic record stored by `WebSubHub.register_topic` (metadata is
not consulted by the verified operations). -/
structure TopicInfo where
  createdAt : Nat
  subscriberCount : Nat
  deriving DecidableEq, Repr

/-- `WebSubHub` state. -/
structure HubState where
  subscriptions : String → Option (List (String × WSub))
  topics : String → Option TopicInfo

/-- `WebSubHub.__init__`. -/
def hubInit : HubState :=
  { subscriptions := fun _ => none, topics := fun _ => none }

/-- `WebSubHub.register_topic`. -/
def registerTopic (st : HubState) (topic : String) (now : Nat) : HubState :=
  { st with
    topics := fun t =>
      if t = topic then some { createdAt := now, subscriberCount := 0 } else st.topics t }

/-- The hub produced by `get_websub_hub` (default topics registered). -/
def hubDefaults : HubState :=
  ["alerts.all", "alerts.critical", "alerts.high", "alerts.cms",
   "alerts.framework", "alerts.plugin", "alerts.shopping_cart"].foldl
    (fun st t => registerTopic st t 0) hubInit

/-- The synchronous response dict of `handle_subscription_request`. -/
structure ReqResponse where
  success : Bool
  statusCode : Nat
  deriving DecidableEq, Repr

/-- The mode dispatch at the end of `handle_subscription_request`:
`_handle_subscribe` schedules the verification as a background task and
returns 202 with the synchronous state unchanged; `_handle_unsubscribe`
returns 404 when no subscription exists for (topic, callback), otherwise
schedules verification and returns 202. -/
def dispatchMode (st : HubState) (mode callback topic : String) :
    ReqResponse × HubState :=
  if mode = "subscribe" then ({ success := true, statusCode := 202 }, st)
  else
    match ((st.subscriptions topic).getD []).lookup callback with
    | none => ({ success := false, statusCode := 404 }, st)
    | some _ => ({ success := true, statusCode := 202 }, st)

/-- `WebSubHub.handle_subscription_request`.  The topic check mirrors the
source exactly: the auto-registration branch sits under the guard
`topic not in self._topics and not topic.startswith("alerts.")` while itself
testing `topic.startswith("alerts.")`, so it is unreachable.  `secret` and
`leaseSeconds` only flow into the subscription handed to the background
verification task (modelled by `verifySubscription`), never into the
synchronous result. -/
def handleSubscriptionRequest (st : HubState) (mode callback topic : String)
    (_secret : Option String) (_leaseSeconds : Option Nat) (now : Nat) :
    ReqResponse × HubState :=
  if mode ≠ "subscribe" ∧ mode ≠ "unsubscribe" then
    ({ success := false, statusCode := 400 }, st)
  else if st.topics topic = none ∧ pyStartsWith topic "alerts." = false then
    if pyStartsWith topic "alerts." then
      dispatchMode (registerTopic st topic now) mode callback topic
    else ({ success := false, statusCode := 404 }, st)
  else dispatchMode st mode callback topic

/-- Outcome of the verification challenge GET. -/
inductive HttpResult where
  | resp (status : Nat) (body : String)
  /-- A raised exception: timeout, connection failure, etc. -/
  | error
  deriving DecidableEq, Repr

/-- `WebSubHub._verify_subscription`: on status 200 with the stripped body
equal to the challenge, mark verified and install (subscribe) or remove
(unsubscribe) the record, updating the topic's subscriber count on install;
on any other response or on an exception, return `False` with the state
untouched. -/
def verifySubscription (st : HubState) (sub : WSub) (mode : String)
    (challenge : String) (r : HttpResult) : Bool × HubState :=
  match r with
  | HttpResult.error => (false, st)
  | HttpResult.resp status body =>
    if status = 200 ∧ pyStrip body = challenge then
      let sub' := { sub with verified := true }
      if mode = "subscribe" then
        let inner := (st.subscriptions sub.topic).getD []
        let inner' := insertA inner sub.callbackUrl sub'
        let topics' : String → Option TopicInfo :=
          match st.topics sub.topic with
          | some ti => fun t =>
              if t = sub.topic then some { ti with subscriberCount := inner'.length }
              else st.topics t
          | none => st.topics
        (true,
          { subscriptions := fun t =>
              if t = sub.topic then some inner' else st.subscriptions t
            topics := topics' })
      else
        let subs' : String → Option (List (String × WSub)) :=
          match st.subscriptions sub.topic with
          | some inner => fun t =>
              if t = sub.topic then some (eraseA inner sub.callbackUrl)
              else st.subscriptions t
          | none => st.subscriptions
        (true, { st with subscriptions := subs' })
    else (false, st)

/-- Accumulator of `WebSubHub.publish`'s delivery loop: the running success
count, the callback URLs a delivery was attempted to, and the live
subscription table (expired entries popped). -/
structure PubAcc where
  successful : Nat
  delivered : List String
  table : List (String × WSub)
  deriving DecidableEq, Repr

/-- One iteration of the `for subscription in list(topic_subs.values())`
loop: an expired subscription is popped from the table and skipped; a live
one gets a delivery attempt whose success (`ok`) increments the counter. -/
def publishStep (now : Nat) (ok : String → Bool) (acc : PubAcc) (p : String × WSub) :
    PubAcc :=
  if p.2.isExpired now then { acc with table := eraseA acc.table p.2.callbackUrl }
  else
    { acc with
      successful := acc.successful + (if ok p.2.callbackUrl then 1 else 0)
      delivered := acc.delivered ++ [p.2.callbackUrl] }

/-- `WebSubHub.publish`: `ok cb` is the outcome of `_deliver_content` for
callback `cb` (acknowledging status, no exception).  When the topic has no
table, `get(topic, {})` yields a fresh dict and the state is unchanged. -/
def publishW (st : HubState) (topic : String) (now : Nat) (ok : String → Bool) :
    PubAcc × HubState :=
  match st.subscriptions topic with
  | none => ({ successful := 0, delivered := [], table := [] }, st)
  | some subs =>
    let r := subs.foldl (publishStep now ok) { successful := 0, delivered := [], table := subs }
    (r, { st with
          subscriptions := fun t => if t = topic then some r.table else st.subscriptions t })

/-! ### C2: verification round-trip -/

/-- A pending subscription for `alerts.cms` as created by
`_handle_subscribe` at time 0 (default lease). -/
def c2Sub : WSub :=
  { callbackUrl := "http://cb", topic := "alerts.cms", secret := none
    leaseSeconds := 86400, createdAt := 0, verified := false }

/-- C2 counterexample: a challenge echo of `"tok\n"` — which is *not*
exactly the challenge token `"tok"` — still verifies and installs the
subscription, because the source compares `response.text.strip()` with
the challenge. -/
theorem whitespace_echo_installs_subscription :
    (verifySubscription hubInit c2Sub "subscribe" "tok"
        (HttpResult.resp 200 "tok\n")).1 = true ∧
      (verifySubscription hubInit c2Sub "subscribe" "tok"
          (HttpResult.resp 200 "tok\n")).2.subscriptions "alerts.cms" =
        some [("http://cb", { c2Sub with verified := true })] ∧
      ("tok\n" : String) ≠ "tok" := by
  refine ⟨by decide, by decide, by decide⟩

/-- C2 (amended): the verification round-trip marks the subscription
verified and touches the hub's subscription table only if the challenge
response has status 200 and its body equals the freshly generated challenge
after stripping leading/trailing whitespace; every other outcome (other
status, non-matching stripped body, timeout or network error) returns
`False` and leaves the hub state completely unchanged — and the source
performs no retry. -/
theorem verify_requires_status200_and_stripped_echo
    (st : HubState) (sub : WSub) (mode challenge : String) (r : HttpResult)
    (h : ∀ status body, r = HttpResult.resp status body →
      ¬(status = 200 ∧ pyStrip body = challenge)) :
    verifySubscription st sub mode challenge r = (false, st) := by
  cases r with
  | error => rfl
  | resp status body =>
    unfold verifySubscription
    simp only []
    rw [if_neg (h status body rfl)]

theorem verify_requires_status200_and_stripped_echo_witness :
    verifySubscription hubInit c2Sub "subscribe" "tok" (HttpResult.resp 404 "tok") =
        (false, hubInit) ∧
      verifySubscription hubInit c2Sub "subscribe" "tok" (HttpResult.resp 200 "nope") =
        (false, hubInit) ∧
      verifySubscription hubInit c2Sub "subscribe" "tok" HttpResult.error =
        (false, hubInit) := by
  refine ⟨?_, ?_, ?_⟩
  · exact verify_requires_status200_and_stripped_echo hubInit c2Sub "subscribe" "tok"
      (HttpResult.resp 404 "tok")
      (by intro status body heq hcond; cases heq; exact absurd hcond (by decide))
  · exact verify_requires_status200_and_stripped_echo hubInit c2Sub "subscribe" "tok"
      (HttpResult.resp 200 "nope")
      (by intro status body heq hcond; cases heq; exact absurd hcond (by decide))
  · exact verify_requires_status200_and_stripped_echo hubInit c2Sub "subscribe" "tok"
      HttpResult.error (by intro status body heq; cases heq)

/-! ### C3: subscription request validation -/

/-- C3: `handle_subscription_request` does reject an unknown mode with 400
and an unknown non-alerts topic with 404, but an unregistered topic under
the alerts namespace is accepted (202) *without* being registered: the
auto-registration call sits in an unreachable branch, contradicting the
source's own `# Auto-register alerts topics` comment. -/
theorem alerts_topic_not_autoregistered :
    (handleSubscriptionRequest hubDefaults "subscribe" "http://cb" "alerts.newtopic"
        none none 7).1 = { success := true, statusCode := 202 } ∧
      (handleSubscriptionRequest hubDefaults "subscribe" "http://cb" "alerts.newtopic"
          none none 7).2.topics "alerts.newtopic" = none ∧
      hubDefaults.topics "alerts.newtopic" = none ∧
      (handleSubscriptionRequest hubDefaults "badmode" "http://cb" "alerts.cms"
          none none 7).1 = { success := false, statusCode := 400 } ∧
      (handleSubscriptionRequest hubDefaults "subscribe" "http://cb" "other.topic"
          none none 7).1 = { success := false, statusCode := 404 } := by
  refine ⟨by decide, by decide, by decide, by decide, by decide⟩

/-! ### C8: publish prunes expired subscriptions -/

theorem eraseA_eq_filter {α : Type} {k : String} :
    ∀ {l : List (String × α)}, (l.map Prod.fst).Nodup →
      eraseA l k = l.filter (fun p => p.1 ≠ k) := by
  intro l
  induction l with
  | nil => intro _; rfl
  | cons p t ih =>
    intro h
    rw [List.map_cons, List.nodup_cons] at h
    obtain ⟨hp, ht⟩ := h
    by_cases hk : p.1 = k
    · simp only [eraseA, if_pos hk, List.filter_cons]
      have hfp : decide (p.1 ≠ k) = false := by simp [hk]
      rw [hfp]
      simp only [Bool.false_eq_true, if_false]
      symm
      rw [List.filter_eq_self]
      intro q hq
      have hqk : q.1 ≠ k := by
        intro hcontra
        have hmem : q.1 ∈ List.map Prod.fst t := List.mem_map_of_mem Prod.fst hq
        rw [hcontra, ← hk] at hmem
        exact hp hmem
      simp [hqk]
    · simp only [eraseA, if_neg hk, List.filter_cons]
      have hfp : decide (p.1 ≠ k) = true := by simp [hk]
      rw [hfp]
      simp only [if_true]
      rw [ih ht]

theorem keyNodup_filter {α : Type} {l : List (String × α)} {p : String × α → Bool}
    (h : (l.map Prod.fst).Nodup) : ((l.filter p).map Prod.fst).Nodup :=
  List.Nodup.sublist (List.Sublist.map Prod.fst (List.filter_sublist l)) h

theorem foldl_eraseA_keys {α : Type} :
    ∀ (ks : List String) (T : List (String × α)), (T.map Prod.fst).Nodup →
      ks.foldl (fun T k => eraseA T k) T = T.filter (fun q => !ks.contains q.1) := by
  intro ks
  induction ks with
  | nil =>
    intro T _
    simp
  | cons k ks ih =>
    intro T h
    rw [List.foldl_cons]
    rw [show eraseA T k = T.filter (fun p => p.1 ≠ k) from eraseA_eq_filter h]
    rw [ih _ (keyNodup_filter h), List.filter_filter]
    apply List.filter_congr
    intro q _
    by_cases hqk : q.1 = k
    · simp [List.contains_cons, hqk]
    · simp [List.contains_cons, hqk]

theorem publish_foldl_spec (now : Nat) (ok : String → Bool) :
    ∀ (L : List (String × WSub)) (acc : PubAcc),
      L.foldl (publishStep now ok) acc =
        { successful := acc.successful +
            (L.filter (fun p => !p.2.isExpired now)).countP (fun p => ok p.2.callbackUrl)
          delivered := acc.delivered ++
            (L.filter (fun p => !p.2.isExpired now)).map (fun p => p.2.callbackUrl)
          table := (L.filter (fun p => p.2.isExpired now)).foldl
            (fun T p => eraseA T p.2.callbackUrl) acc.table } := by
  intro L
  induction L with
  | nil => intro acc; simp
  | cons p L ih =>
    intro acc
    rw [List.foldl_cons, ih]
    unfold publishStep
    by_cases hexp : p.2.isExpired now = true
    · rw [if_pos hexp]
      simp only [List.filter_cons, hexp, Bool.not_true, Bool.false_eq_true, if_false,
        if_true, List.foldl_cons]
    · rw [if_neg hexp]
      have hexp' : p.2.isExpired now = false := by
        cases hb : p.2.isExpired now
        · rfl
        · exact absurd hb hexp
      simp only [List.filter_cons, hexp', Bool.not_false, if_true, Bool.false_eq_true,
        if_false, List.countP_cons, List.map_cons, PubAcc.mk.injEq]
      refine ⟨by omega, by simp, trivial⟩

theorem publish_table_eq {subs : List (String × WSub)} {now : Nat}
    (hnodup : (subs.map Prod.fst).Nodup)
    (hkeys : ∀ p ∈ subs, p.1 = p.2.callbackUrl) :
    (subs.filter (fun p => p.2.isExpired now)).foldl
        (fun T p => eraseA T p.2.callbackUrl) subs =
      subs.filter (fun p => !p.2.isExpired now) := by
  have h1 : (subs.filter (fun p => p.2.isExpired now)).foldl
      (fun T p => eraseA T p.2.callbackUrl) subs =
      ((subs.filter (fun p => p.2.isExpired now)).map (fun p => p.2.callbackUrl)).foldl
        (fun T k => eraseA T k) subs := by
    rw [List.foldl_map]
  rw [h1, foldl_eraseA_keys _ _ hnodup]
  apply List.filter_congr
  intro q hq
  have hinj := List.inj_on_of_nodup_map hnodup
  by_cases hq2 : q.2.isExpired now = true
  · have hmem : q.1 ∈ (subs.filter (fun p => p.2.isExpired now)).map
        (fun p => p.2.callbackUrl) :=
      List.mem_map.mpr ⟨q, List.mem_filter.mpr ⟨hq, hq2⟩, (hkeys q hq).symm⟩
    have hcontains : ((subs.filter (fun p => p.2.isExpired now)).map
        (fun p => p.2.callbackUrl)).contains q.1 = true :=
      List.elem_eq_true_of_mem hmem
    rw [hcontains, hq2]
  · have hq2' : q.2.isExpired now = false := by
      cases hb : q.2.isExpired now
      · rfl
      · exact absurd hb hq2
    have hcontains : ((subs.filter (fun p => p.2.isExpired now)).map
        (fun p => p.2.callbackUrl)).contains q.1 = false := by
      cases hb : ((subs.filter (fun p => p.2.isExpired now)).map
          (fun p => p.2.callbackUrl)).contains q.1
      · rfl
      · exfalso
        obtain ⟨p, hpfilter, hpcb⟩ := List.mem_map.mp (List.mem_of_elem_eq_true hb)
        obtain ⟨hpsubs, hpexp⟩ := List.mem_filter.mp hpfilter
        have hpq : p = q := hinj hpsubs hq (by rw [hkeys p hpsubs]; exact hpcb)
        rw [hpq, hq2'] at hpexp
        exact Bool.false_ne_true hpexp
    rw [hcontains, hq2']

/-- C8: `publish` attempts delivery exactly to the non-expired (hence, given
that the hub only ever installs verified records, verified) subscriptions of
the topic; an expired subscription gets no delivery attempt and is pruned
from the per-topic table by the publish call; a failed delivery to a live
subscription only affects the success count, never the table. -/
theorem websub_publish_prunes_expired
    (st : HubState) (topic : String) (now : Nat) (ok : String → Bool)
    (subs : List (String × WSub))
    (hsubs : st.subscriptions topic = some subs)
    (hnodup : (subs.map Prod.fst).Nodup)
    (hkeys : ∀ p ∈ subs, p.1 = p.2.callbackUrl)
    (hver : ∀ p ∈ subs, p.2.verified = true) :
    (publishW st topic now ok).1.delivered =
        (subs.filter (fun p => !p.2.isExpired now)).map (fun p => p.2.callbackUrl) ∧
      (∀ p ∈ subs, p.2.isExpired now = true →
        p.2.callbackUrl ∉ (publishW st topic now ok).1.delivered) ∧
      (∀ cb ∈ (publishW st topic now ok).1.delivered, ∃ p, p ∈ subs ∧
        p.2.callbackUrl = cb ∧ p.2.verified = true ∧ p.2.isExpired now = false) ∧
      (publishW st topic now ok).2.subscriptions topic =
        some (subs.filter (fun p => !p.2.isExpired now)) ∧
      (publishW st topic now ok).1.successful =
        (subs.filter (fun p => !p.2.isExpired now)).countP (fun p => ok p.2.callbackUrl) := by
  have hinj := List.inj_on_of_nodup_map hnodup
  have hpub : publishW st topic now ok =
      (subs.foldl (publishStep now ok) { successful := 0, delivered := [], table := subs },
        { st with subscriptions := fun t =>
            if t = topic then
              some (subs.foldl (publishStep now ok)
                { successful := 0, delivered := [], table := subs }).table
            else st.subscriptions t }) := by
    unfold publishW
    rw [hsubs]
  rw [hpub, publish_foldl_spec]
  simp only [List.nil_append, Nat.zero_add]
  refine ⟨trivial, ?_, ?_, ?_, trivial⟩
  · intro p hp hpexp hmem
    obtain ⟨q, hqlive, hqcb⟩ := List.mem_map.mp hmem
    obtain ⟨hqsubs, hqexp⟩ := List.mem_filter.mp hqlive
    have hpq : q = p := hinj hqsubs hp (by rw [hkeys q hqsubs, hkeys p hp]; exact hqcb)
    rw [hpq, hpexp] at hqexp
    simp at hqexp
  · intro cb hmem
    obtain ⟨q, hqlive, hqcb⟩ := List.mem_map.mp hmem
    obtain ⟨hqsubs, hqexp⟩ := List.mem_filter.mp hqlive
    refine ⟨q, hqsubs, hqcb, hver q hqsubs, ?_⟩
    cases hb : q.2.isExpired now
    · rfl
    · rw [hb] at hqexp
      simp at hqexp
  · rw [publish_table_eq hnodup hkeys]
    simp

/-- A hub holding one expired and one live verified subscription for
`alerts.cms`. -/
def c8Hub : HubState :=
  { subscriptions := fun t =>
      if t = "alerts.cms" then
        some [("http://old", { callbackUrl := "http://old", topic := "alerts.cms",
                               secret := none, leaseSeconds := 10, createdAt := 0,
                               verified := true }),
              ("http://live", { callbackUrl := "http://live", topic := "alerts.cms",
                                secret := none, leaseSeconds := 100, createdAt := 0,
                                verified := true })]
      else none
    topics := fun _ => none }

theorem websub_publish_prunes_expired_witness :
    (publishW c8Hub "alerts.cms" 50 (fun _ => false)).1.delivered = ["http://live"] ∧
      (publishW c8Hub "alerts.cms" 50 (fun _ => false)).2.subscriptions "alerts.cms" =
        some [("http://live", { callbackUrl := "http://live", topic := "alerts.cms",
                                secret := none, leaseSeconds := 100, createdAt := 0,
                                verified := true })] ∧
      (publishW c8Hub "alerts.cms" 50 (fun _ => false)).1.successful = 0 := by
  have h := websub_publish_prunes_expired c8Hub "alerts.cms" 50 (fun _ => false)
    [("http://old", { callbackUrl := "http://old", topic := "alerts.cms", secret := none,
                      leaseSeconds := 10, createdAt := 0, verified := true }),
     ("http://live", { callbackUrl := "http://live", topic := "alerts.cms", secret := none,
                       leaseSeconds := 100, createdAt := 0, verified := true })]
    (by decide) (by decide) (by decide) (by decide)
  refine ⟨?_, ?_, ?_⟩
  · rw [h.1]; decide
  · rw [h.2.2.2.1]; decide
  · rw [h.2.2.2.2]; decide

/-! ## Smart cache proxy (`asc/services/cache_proxy.py`)

`LRUCache._cache` is an `OrderedDict`, embedded as an association list in
insertion/recency order (front = oldest).  `move_to_end` is erase-and-append;
plain assignment replaces in place (an existing key keeps its position).
Stored values are `PyVal`, so a stored Python `None` is representable and —
exactly as in the source — indistinguishable from a miss in `get`'s
return value. -/

/-- `CacheEntry` dataclass. -/
structure CacheEntry where
  key : String
  value : PyVal
  createdAt : Nat
  expiresAt : Option Nat
  hitCount : Nat
  lastAccessed : Nat
  deriving DecidableEq, Repr

/-- `CacheEntry.is_expired`: `now > expires_at` when an expiry is set. -/
def CacheEntry.isExpired (e : CacheEntry) (now : Nat) : Bool :=
  match e.expiresAt with
  | none => false
  | some t => decide (t < now)

/-- `CacheEntry.touch`. -/
def CacheEntry.touch (e : CacheEntry) (now : Nat) : CacheEntry :=
  { e with lastAccessed := now, hitCount := e.hitCount + 1 }

/-- `LRUCache` state. -/
structure LRUState where
  cache : List (String × CacheEntry)
  maxSize : Nat
  defaultTtl : Nat
  hits : Nat
  misses : Nat
  deriving DecidableEq, Repr

/-- `LRUCache.__init__`. -/
def lruInit (maxSize defaultTtl : Nat) : LRUState :=
  { cache := [], maxSize := maxSize, defaultTtl := defaultTtl, hits := 0, misses := 0 }

/-- `LRUCache.get`: a miss (or a lazily deleted expired entry) returns the
Python `None`; a hit moves the entry to the most-recently-used end, touches
it, and returns its value. -/
def lruGet (st : LRUState) (key : String) (now : Nat) : PyVal × LRUState :=
  match st.cache.lookup key with
  | none => (PyVal.vnone, { st with misses := st.misses + 1 })
  | some e =>
    if e.isExpired now then
      (PyVal.vnone, { st with cache := eraseA st.cache key, misses := st.misses + 1 })
    else
      (e.value,
        { st with
          cache := eraseA st.cache key ++ [(key, e.touch now)]
          hits := st.hits + 1 })

/-- The `while len(self._cache) >= self._max_size: popitem(last=False)` loop
of `LRUCache.set`: evict from the front; popping an empty dict (only
possible when `max_size` is 0) raises `KeyError`, modelled as `none`. -/
def evictLoop (max : Nat) : List (String × CacheEntry) → Option (List (String × CacheEntry))
  | [] => if max = 0 then none else some []
  | p :: t => if max ≤ (p :: t).length then evictLoop max t else some (p :: t)

/-- The `CacheEntry` built by `LRUCache.set`: `ttl = ttl or default_ttl`
(Python `or`, so an explicit 0 falls back to the default), and no expiry
when the effective ttl is 0. -/
def mkEntry (key : String) (value : PyVal) (ttl : Option Nat) (defaultTtl now : Nat) :
    CacheEntry :=
  let ttl' := match ttl with
    | some t => if t = 0 then defaultTtl else t
    | none => defaultTtl
  { key := key, value := value, createdAt := now
    expiresAt := if ttl' = 0 then none else some (now + ttl')
    hitCount := 0, lastAccessed := now }

/-- `LRUCache.set`: evict while at capacity, then assign the new entry
(replacing in place when the key survived eviction). -/
def lruSet (st : LRUState) (key : String) (value : PyVal) (ttl : Option Nat) (now : Nat) :
    Option LRUState :=
  match evictLoop st.maxSize st.cache with
  | none => none
  | some c =>
    some { st with cache := insertA c key (mkEntry key value ttl st.defaultTtl now) }

/-- A `get` or `set` request against the LRU cache, with its wall-clock
instant. -/
inductive COp where
  | cset (key : String) (value : PyVal) (ttl : Option Nat) (now : Nat)
  | cget (key : String) (now : Nat)
  deriving Repr

/-- A failing `set` (only possible at `max_size = 0`) raises, leaving the
state unchanged. -/
def applyCOp (st : LRUState) : COp → LRUState
  | COp.cset key value ttl now => (lruSet st key value ttl now).getD st
  | COp.cget key now => (lruGet st key now).2

def runLRU (st : LRUState) : List COp → LRUState
  | [] => st
  | op :: ops => runLRU (applyCOp st op) ops

/-! ### Association list lemmas for the cache -/

theorem lookup_none_forall {α : Type} :
    ∀ {l : List (String × α)} {k : String}, l.lookup k = none → ∀ p ∈ l, p.1 ≠ k := by
  intro l k
  induction l with
  | nil => intro _ p hp; exact absurd hp (List.not_mem_nil p)
  | cons q t ih =>
    intro h p hp
    rw [List.lookup_cons] at h
    cases hq : (k == q.1) with
    | true =>
      rw [hq] at h
      exact Option.noConfusion h
    | false =>
      rw [hq] at h
      rcases List.mem_cons.mp hp with rfl | hpt
      · intro hcontra
        rw [hcontra] at hq
        simp at hq
      · exact ih h p hpt

theorem lookup_some_mem {α : Type} :
    ∀ {l : List (String × α)} {k : String} {v : α}, l.lookup k = some v → (k, v) ∈ l := by
  intro l k v
  induction l with
  | nil => intro h; exact Option.noConfusion h
  | cons q t ih =>
    intro h
    rw [List.lookup_cons] at h
    cases hq : (k == q.1) with
    | true =>
      rw [hq] at h
      have hk : k = q.1 := eq_of_beq hq
      have hv : q.2 = v := Option.some.inj h
      exact List.mem_cons.mpr (Or.inl (by rw [hk, ← hv]))
    | false =>
      rw [hq] at h
      exact List.mem_cons.mpr (Or.inr (ih h))

theorem insertA_append_of_fresh {α : Type} {k : String} {v : α} :
    ∀ {c : List (String × α)}, (∀ p ∈ c, p.1 ≠ k) → insertA c k v = c ++ [(k, v)] := by
  intro c
  induction c with
  | nil => intro _; rfl
  | cons p t ih =>
    intro h
    have hp : p.1 ≠ k := h p (List.mem_cons_self p t)
    simp only [insertA, if_neg hp, List.cons_append]
    rw [ih (fun q hq => h q (List.mem_cons_of_mem p hq))]

theorem eraseA_subset {α : Type} {k : String} :
    ∀ {l : List (String × α)} {p : String × α}, p ∈ eraseA l k → p ∈ l := by
  intro l
  induction l with
  | nil => intro p hp; exact absurd hp (List.not_mem_nil p)
  | cons q t ih =>
    intro p hp
    simp only [eraseA] at hp
    by_cases hq : q.1 = k
    · rw [if_pos hq] at hp
      exact List.mem_cons_of_mem q hp
    · rw [if_neg hq] at hp
      rcases List.mem_cons.mp hp with rfl | hpt
      · exact List.mem_cons_self p t
      · exact List.mem_cons_of_mem q (ih hpt)

theorem eraseA_length_le {α : Type} {k : String} :
    ∀ {l : List (String × α)}, (eraseA l k).length ≤ l.length := by
  intro l
  induction l with
  | nil => exact Nat.le_refl 0
  | cons q t ih =>
    simp only [eraseA]
    by_cases hq : q.1 = k
    · rw [if_pos hq]
      exact Nat.le_succ_of_le (Nat.le_refl t.length)
    · rw [if_neg hq]
      simpa using Nat.succ_le_succ ih

theorem lookup_some_eraseA_length {α : Type} {k : String} {v : α} :
    ∀ {l : List (String × α)}, l.lookup k = some v → (eraseA l k).length + 1 = l.length := by
  intro l
  induction l with
  | nil => intro h; exact Option.noConfusion h
  | cons q t ih =>
    intro h
    rw [List.lookup_cons] at h
    simp only [eraseA]
    cases hq : (k == q.1) with
    | true =>
      rw [if_pos (eq_of_beq hq).symm]
      rfl
    | false =>
      rw [hq] at h
      have hne : q.1 ≠ k := by
        intro hcontra
        rw [hcontra] at hq
        simp at hq
      rw [if_neg hne]
      simp only [List.length_cons]
      rw [← ih h]

theorem insertA_length_le {α : Type} {k : String} {v : α} :
    ∀ {c : List (String × α)}, (insertA c k v).length ≤ c.length + 1 := by
  intro c
  induction c with
  | nil => exact Nat.le_refl 1
  | cons p t ih =>
    simp only [insertA]
    by_cases hp : p.1 = k
    · rw [if_pos hp]
      simp only [List.length_cons]
      omega
    · rw [if_neg hp]
      simp only [List.length_cons]
      omega

/-! ### Eviction and capacity lemmas -/

theorem evictLoop_some_of_pos {max : Nat} (hpos : 0 < max) :
    ∀ (c : List (String × CacheEntry)), ∃ c', evictLoop max c = some c' ∧ c'.length < max := by
  intro c
  induction c with
  | nil =>
    refine ⟨[], ?_, hpos⟩
    simp only [evictLoop, if_neg (Nat.pos_iff_ne_zero.mp hpos)]
  | cons p t ih =>
    by_cases h : max ≤ (p :: t).length
    · obtain ⟨c', hc', hlen⟩ := ih
      exact ⟨c', by simp only [evictLoop, if_pos h]; exact hc', hlen⟩
    · exact ⟨p :: t, by simp only [evictLoop, if_neg h], Nat.lt_of_not_le h⟩

theorem evictLoop_at_capacity {max : Nat} (hpos : 0 < max) :
    ∀ {c : List (String × CacheEntry)}, c.length = max → evictLoop max c = some c.tail := by
  intro c
  cases c with
  | nil =>
    intro h
    exfalso
    simp only [List.length_nil] at h
    omega
  | cons p t =>
    intro h
    have h1 : max ≤ (p :: t).length := Nat.le_of_eq h.symm
    simp only [evictLoop, if_pos h1, List.tail_cons]
    cases t with
    | nil =>
      simp only [evictLoop]
      rw [if_neg (Nat.pos_iff_ne_zero.mp hpos)]
    | cons q u =>
      have h2 : ¬ max ≤ (q :: u).length := by
        simp only [List.length_cons] at h ⊢
        omega
      simp only [evictLoop, if_neg h2]

theorem lruGet_length_le (st : LRUState) (key : String) (now : Nat) :
    (lruGet st key now).2.cache.length ≤ st.cache.length := by
  unfold lruGet
  cases hl : st.cache.lookup key with
  | none => exact Nat.le_refl _
  | some e =>
    simp only []
    by_cases hexp : e.isExpired now = true
    · rw [if_pos hexp]
      exact eraseA_length_le
    · rw [if_neg hexp]
      simp only [List.length_append, List.length_cons, List.length_nil]
      have := lookup_some_eraseA_length (l := st.cache) (k := key) (v := e) hl
      omega

theorem lruGet_maxSize (st : LRUState) (key : String) (now : Nat) :
    (lruGet st key now).2.maxSize = st.maxSize := by
  unfold lruGet
  cases hl : st.cache.lookup key with
  | none => rfl
  | some e =>
    simp only []
    by_cases hexp : e.isExpired now = true
    · rw [if_pos hexp]
    · rw [if_neg hexp]

theorem lruSet_length {s : LRUState} {key : String} {value : PyVal} {ttl : Option Nat}
    {now : Nat} {st' : LRUState} (hpos : 0 < s.maxSize)
    (h : lruSet s key value ttl now = some st') :
    st'.cache.length ≤ s.maxSize ∧ st'.maxSize = s.maxSize := by
  unfold lruSet at h
  obtain ⟨c, hc, hlen⟩ := evictLoop_some_of_pos hpos s.cache
  rw [hc] at h
  have hst' : st' = { s with cache := insertA c key (mkEntry key value ttl s.defaultTtl now) } :=
    (Option.some.inj h).symm
  rw [hst']
  refine ⟨?_, rfl⟩
  calc (insertA c key (mkEntry key value ttl s.defaultTtl now)).length
      ≤ c.length + 1 := insertA_length_le
    _ ≤ s.maxSize := hlen

theorem applyCOp_invariant {N : Nat} (hpos : 0 < N) (st : LRUState) (op : COp)
    (hmax : st.maxSize = N) (hlen : st.cache.length ≤ N) :
    (applyCOp st op).maxSize = N ∧ (applyCOp st op).cache.length ≤ N := by
  cases op with
  | cget key now =>
    exact ⟨(lruGet_maxSize st key now).trans hmax,
      Nat.le_trans (lruGet_length_le st key now) hlen⟩
  | cset key value ttl now =>
    simp only [applyCOp]
    cases hset : lruSet st key value ttl now with
    | none => exact ⟨hmax, hlen⟩
    | some st' =>
      simp only [Option.getD_some]
      have hs := lruSet_length (s := st) (hmax ▸ hpos) hset
      exact ⟨hs.2.trans hmax, hmax ▸ hs.1⟩

theorem runLRU_length_invariant {N : Nat} (hpos : 0 < N) :
    ∀ (ops : List COp) (st : LRUState), st.maxSize = N → st.cache.length ≤ N →
      (runLRU st ops).cache.length ≤ N ∧ (runLRU st ops).maxSize = N := by
  intro ops
  induction ops with
  | nil => intro st hmax hlen; exact ⟨hlen, hmax⟩
  | cons op ops ih =>
    intro st hmax hlen
    obtain ⟨hmax', hlen'⟩ := applyCOp_invariant hpos st op hmax hlen
    exact ih _ hmax' hlen'

/-! ### C7: LRU capacity bound, eviction order and touch protection -/

theorem lruSet_at_capacity_fresh {s : LRUState} {k : String} {v : PyVal}
    {o : Option Nat} {n : Nat} (hpos : 0 < s.maxSize)
    (hlen : s.cache.length = s.maxSize) (hfresh : ∀ p ∈ s.cache, p.1 ≠ k) :
    lruSet s k v o n =
      some { s with cache := s.cache.tail ++ [(k, mkEntry k v o s.defaultTtl n)] } := by
  unfold lruSet
  rw [evictLoop_at_capacity hpos hlen]
  simp only []
  have hfresh' : ∀ p ∈ s.cache.tail, p.1 ≠ k := fun p hp =>
    hfresh p (List.mem_of_mem_tail hp)
  rw [insertA_append_of_fresh hfresh']

theorem lruGet_hit {s : LRUState} {k : String} {e : CacheEntry} {n : Nat}
    (hlook : s.cache.lookup k = some e) (hexp : e.isExpired n = false) :
    lruGet s k n =
      (e.value,
        { s with cache := eraseA s.cache k ++ [(k, e.touch n)], hits := s.hits + 1 }) := by
  unfold lruGet
  rw [hlook]
  simp only []
  rw [if_neg (by rw [hexp]; exact Bool.false_ne_true)]

/-- C7: with capacity `N > 0`, (a) no sequence of `set`/`get` requests ever
leaves more than `N` entries in the cache; (b) a `set` of a fresh key on a
full cache evicts exactly the front — least-recently-touched — entry,
regardless of that entry's remaining TTL; (c) a non-expired `get` moves the
accessed entry to the most-recently-used end; and (d) consequently a fresh
`set` on a full cache (`N ≥ 2`) right after such a `get` keeps the accessed
key and evicts another. -/
theorem lru_capacity_and_eviction (N d : Nat) (hpos : 0 < N) :
    (∀ ops : List COp, (runLRU (lruInit N d) ops).cache.length ≤ N) ∧
    (∀ (s : LRUState) (key : String) (v : PyVal) (ttl : Option Nat) (now : Nat),
      s.maxSize = N → s.cache.length = N → (∀ p ∈ s.cache, p.1 ≠ key) →
      lruSet s key v ttl now =
        some { s with cache := s.cache.tail ++ [(key, mkEntry key v ttl s.defaultTtl now)] }) ∧
    (∀ (s : LRUState) (key : String) (e : CacheEntry) (now : Nat),
      s.cache.lookup key = some e → e.isExpired now = false →
      lruGet s key now =
        (e.value,
          { s with cache := eraseA s.cache key ++ [(key, e.touch now)],
                   hits := s.hits + 1 })) ∧
    (∀ (s : LRUState) (key : String) (e : CacheEntry) (now : Nat) (key' : String)
        (v : PyVal) (ttl : Option Nat) (now' : Nat),
      s.maxSize = N → 2 ≤ N → s.cache.length = N →
      s.cache.lookup key = some e → e.isExpired now = false →
      (∀ p ∈ s.cache, p.1 ≠ key') →
      ∃ s2, lruSet ((lruGet s key now).2) key' v ttl now' = some s2 ∧
        key ∈ s2.cache.map Prod.fst ∧ key' ∈ s2.cache.map Prod.fst ∧
        s2.cache.length = N) := by
  refine ⟨?_, ?_, ?_, ?_⟩
  · intro ops
    exact (runLRU_length_invariant hpos ops (lruInit N d) rfl (Nat.zero_le N)).1
  · intro s key v ttl now hmax hlen hfresh
    exact lruSet_at_capacity_fresh (hmax ▸ hpos) (hlen.trans hmax.symm) hfresh
  · intro s key e now hlook hexp
    exact lruGet_hit hlook hexp
  · intro s key e now key' v ttl now' hmax h2 hlen hlook hexp hfresh
    rw [lruGet_hit hlook hexp]
    simp only []
    have herase := lookup_some_eraseA_length (l := s.cache) (k := key) (v := e) hlook
    have hs1len : (eraseA s.cache key ++ [(key, e.touch now)]).length = N := by
      rw [List.length_append]
      simp only [List.length_cons, List.length_nil]
      omega
    have hkeymem : (key, e) ∈ s.cache := lookup_some_mem hlook
    have hkk' : key ≠ key' := hfresh (key, e) hkeymem
    have hfresh1 : ∀ p ∈ eraseA s.cache key ++ [(key, e.touch now)], p.1 ≠ key' := by
      intro p hp
      rcases List.mem_append.mp hp with hp1 | hp2
      · exact hfresh p (eraseA_subset hp1)
      · rcases List.mem_singleton.mp hp2 with rfl
        exact hkk'
    have hset := lruSet_at_capacity_fresh (s :=
        { s with cache := eraseA s.cache key ++ [(key, e.touch now)], hits := s.hits + 1 })
      (k := key') (v := v) (o := ttl) (n := now')
      (by simpa using hmax ▸ hpos) (by simpa using hs1len.trans hmax.symm) hfresh1
    refine ⟨_, hset, ?_, ?_, ?_⟩
    · have hne : eraseA s.cache key ≠ [] := by
        intro hnil
        rw [hnil] at herase
        simp only [List.length_nil] at herase
        omega
      obtain ⟨x, rest, hdecomp⟩ := List.exists_cons_of_ne_nil hne
      simp only [hdecomp, List.cons_append, List.tail_cons]
      refine List.mem_map.mpr ⟨(key, e.touch now), ?_, rfl⟩
      exact List.mem_append.mpr (Or.inl (List.mem_append.mpr (Or.inr (List.mem_singleton.mpr rfl))))
    · simp only []
      refine List.mem_map.mpr ⟨(key', mkEntry key' v ttl s.defaultTtl now'), ?_, rfl⟩
      exact List.mem_append.mpr (Or.inr (List.mem_singleton.mpr rfl))
    · simp only [List.length_append, List.length_tail, List.length_cons, List.length_nil]
      omega

/-- A full capacity-2 cache whose least-recently-used entry has key `"a"`. -/
def c7State : LRUState :=
  { cache := [("a", { key := "a", value := PyVal.scalar (Scalar.int 1), createdAt := 0,
                      expiresAt := some 100, hitCount := 0, lastAccessed := 0 }),
              ("b", { key := "b", value := PyVal.scalar (Scalar.int 2), createdAt := 0,
                      expiresAt := some 100, hitCount := 0, lastAccessed := 0 })]
    maxSize := 2, defaultTtl := 300, hits := 0, misses := 0 }

theorem lru_capacity_and_eviction_witness :
    (runLRU (lruInit 2 300)
        [COp.cset "a" (PyVal.scalar (Scalar.int 1)) none 0,
         COp.cset "b" (PyVal.scalar (Scalar.int 2)) none 1,
         COp.cset "c" (PyVal.scalar (Scalar.int 3)) none 2]).cache.length ≤ 2 ∧
      (∃ s2, lruSet ((lruGet c7State "a" 0).2) "c" (PyVal.scalar (Scalar.int 3)) none 1 =
          some s2 ∧
        "a" ∈ s2.cache.map Prod.fst ∧ "c" ∈ s2.cache.map Prod.fst ∧
        s2.cache.length = 2) := by
  refine ⟨(lru_capacity_and_eviction 2 300 (by decide)).1 _, ?_⟩
  exact (lru_capacity_and_eviction 2 300 (by decide)).2.2.2 c7State "a"
    { key := "a", value := PyVal.scalar (Scalar.int 1), createdAt := 0,
      expiresAt := some 100, hitCount := 0, lastAccessed := 0 } 0 "c"
    (PyVal.scalar (Scalar.int 3)) none 1 rfl (by decide) (by decide) (by decide)
    (by decide) (by decide)

/-! ### C9: a stored `None` is indistinguishable from a miss -/

theorem lookup_insertA_self {α : Type} {k : String} {v : α} :
    ∀ {c : List (String × α)}, (insertA c k v).lookup k = some v := by
  intro c
  induction c with
  | nil =>
    simp only [insertA, List.lookup_cons]
    rw [show (k == k) = true from beq_self_eq_true k]
  | cons p t ih =>
    by_cases hp : p.1 = k
    · simp only [insertA, if_pos hp, List.lookup_cons]
      rw [show (k == k) = true from beq_self_eq_true k]
    · have hkp : (k == p.1) = false := by
        cases hb : (k == p.1)
        · rfl
        · exact absurd (eq_of_beq hb).symm hp
      rw [show insertA (p :: t) k v = p :: insertA t k v from by
          simp only [insertA, if_neg hp]]
      rw [List.lookup_cons, hkp]
      exact ih

/-- `SmartCacheProxy` state: the LRU tier, the keys with a pending
(in-flight) fetch future, and the popularity counters. -/
structure ProxyState where
  cache : LRUState
  pending : List String
  popularKeys : String → Nat

/-- The fetcher argument of `SmartCacheProxy.get`: absent, or a fetcher
whose invocation returns `result`. -/
inductive FetchSpec where
  | noFetcher
  | fetcher (result : PyVal)
  deriving Repr

/-- Outcome of one `SmartCacheProxy.get` call: a returned value together
with whether the fetcher was invoked during this call, or suspension on
another caller's in-flight future. -/
inductive ProxyGetResult where
  | val (v : PyVal) (fetcherInvoked : Bool)
  | awaitPending
  deriving DecidableEq, Repr

/-- `SmartCacheProxy.get`, sequential (single-caller) semantics: bump the
popularity counter, consult the LRU tier, and — because the hit test is
`cached is not None` — treat a stored `None` exactly like a miss: return the
miss signal without a fetcher, or invoke the fetcher (registering and then
clearing the pending future) when one is supplied and no fetch is in
flight. -/
def proxyGet (st : ProxyState) (key : String) (f : FetchSpec) (ttl : Option Nat)
    (now : Nat) : ProxyGetResult × ProxyState :=
  let st1 := { st with
    popularKeys := fun k => if k = key then st.popularKeys k + 1 else st.popularKeys k }
  let gc := lruGet st1.cache key now
  let st2 := { st1 with cache := gc.2 }
  if gc.1 ≠ PyVal.vnone then (ProxyGetResult.val gc.1 false, st2)
  else
    match f with
    | FetchSpec.noFetcher => (ProxyGetResult.val PyVal.vnone false, st2)
    | FetchSpec.fetcher v =>
      if st2.pending.contains key then (ProxyGetResult.awaitPending, st2)
      else
        let st3 := { st2 with pending := key :: st2.pending }
        let st4 := { st3 with cache := (lruSet st3.cache key v ttl now).getD st3.cache }
        (ProxyGetResult.val v true,
          { st4 with pending := st4.pending.filter (fun k => k ≠ key) })

/-- `SmartCacheProxy.set`. -/
def proxySet (st : ProxyState) (key : String) (value : PyVal) (ttl : Option Nat)
    (now : Nat) : ProxyState :=
  { st with cache := (lruSet st.cache key value ttl now).getD st.cache }

/-- C9: after `set(key, None)`, a `get(key)` before the entry's expiry
returns the miss signal `None` (the stored `None` is indistinguishable from
a miss), and when a fetcher is supplied the fetcher is invoked on every such
call. -/
theorem cached_none_behaves_as_miss
    (st : ProxyState) (key : String) (t now now' : Nat) (fval : PyVal)
    (hpos : 0 < st.cache.maxSize)
    (hpending : st.pending.contains key = false)
    (ht : 0 < t)
    (hbefore : now' ≤ now + t) :
    (proxyGet (proxySet st key PyVal.vnone (some t) now) key FetchSpec.noFetcher
        none now').1 = ProxyGetResult.val PyVal.vnone false ∧
      (proxyGet (proxySet st key PyVal.vnone (some t) now) key (FetchSpec.fetcher fval)
          none now').1 = ProxyGetResult.val fval true := by
  obtain ⟨c, hc, _⟩ := evictLoop_some_of_pos hpos st.cache.cache
  have hset : lruSet st.cache key PyVal.vnone (some t) now =
      some { st.cache with
        cache := insertA c key (mkEntry key PyVal.vnone (some t) st.cache.defaultTtl now) } := by
    unfold lruSet
    rw [hc]
  have hstate : proxySet st key PyVal.vnone (some t) now =
      { st with cache := { st.cache with
        cache := insertA c key (mkEntry key PyVal.vnone (some t) st.cache.defaultTtl now) } } := by
    unfold proxySet
    rw [hset]
    rfl
  have hlook : (insertA c key (mkEntry key PyVal.vnone (some t) st.cache.defaultTtl now)).lookup
      key = some (mkEntry key PyVal.vnone (some t) st.cache.defaultTtl now) :=
    lookup_insertA_self
  have hexp : (mkEntry key PyVal.vnone (some t) st.cache.defaultTtl now).isExpired now' =
      false := by
    unfold mkEntry CacheEntry.isExpired
    simp only [if_neg (Nat.pos_iff_ne_zero.mp ht)]
    exact decide_eq_false (Nat.not_lt.mpr hbefore)
  have hval : (mkEntry key PyVal.vnone (some t) st.cache.defaultTtl now).value =
      PyVal.vnone := rfl
  have hget := lruGet_hit
    (s := { st.cache with
      cache := insertA c key (mkEntry key PyVal.vnone (some t) st.cache.defaultTtl now) })
    (k := key) (n := now') hlook hexp
  rw [hstate]
  constructor
  · unfold proxyGet
    simp only [hget, hval]
    simp
  · unfold proxyGet
    simp only [hget, hval, hpending]
    simp

/-- C9 witness state: an empty proxy over a capacity-10 LRU tier. -/
def proxyW : ProxyState :=
  { cache := lruInit 10 300, pending := [], popularKeys := fun _ => 0 }

theorem cached_none_behaves_as_miss_witness :
    (proxyGet (proxySet proxyW "k" PyVal.vnone (some 5) 0) "k" FetchSpec.noFetcher
        none 3).1 = ProxyGetResult.val PyVal.vnone false ∧
      (proxyGet (proxySet proxyW "k" PyVal.vnone (some 5) 0) "k"
          (FetchSpec.fetcher (PyVal.scalar (Scalar.int 7))) none 3).1 =
        ProxyGetResult.val (PyVal.scalar (Scalar.int 7)) true :=
  cached_none_behaves_as_miss proxyW "k" 5 0 3 (PyVal.scalar (Scalar.int 7))
    (by decide) (by decide) (by decide) (by decide)

/-! ### C4: per-key fetch deduplication under concurrency

`SmartCacheProxy.get` runs on asyncio's single-threaded cooperative
scheduler.  No lock in the source is ever held across an `await` that
suspends, so a `get` call executes atomically from its cache check up to
either (a) suspending on another caller's pending future or (b) suspending
inside its own fetcher invocation, and then again atomically from the
fetcher's return through caching, future resolution and pending-slot
cleanup.  Two concurrent callers for one missing key are therefore embedded
as a two-task transition system whose atomic steps are exactly those
segments; the fetcher deterministically yields `outcome`. -/

/-- Fetcher outcome: a (non-`None`) value, or a raised exception. -/
inductive FetchOutcome where
  | ok (v : Nat)
  | fail
  deriving DecidableEq, Repr

/-- Program counter of one `get` caller. -/
inductive TaskPc where
  /-- About to run: popularity bump, cache check, dedup check. -/
  | start
  /-- Suspended inside its own fetcher invocation. -/
  | fetching
  /-- Awaiting the other caller's pending future. -/
  | waiting
  /-- Returned (or raised) `r`. -/
  | done (r : FetchOutcome)
  deriving DecidableEq, Repr

/-- Shared state of the two concurrent `get` callers for one key:
the cached value for the key, whether a pending future is registered
(`_pending_requests`), the resolved future value, the number of fetcher
invocations so far, a monotone flag recording whether a fetch was ever
started after an earlier fetch had already run (a sequential re-fetch,
which the claim's concurrency scenario excludes), and the two callers. -/
structure DedupState where
  cache : Option Nat
  pending : Bool
  futureResult : Option FetchOutcome
  fetchCount : Nat
  refetch : Bool
  t1 : TaskPc
  t2 : TaskPc
  deriving DecidableEq, Repr

/-- Both callers about to `get` the same missing key. -/
def dedupInit : DedupState :=
  { cache := none, pending := false, futureResult := none, fetchCount := 0,
    refetch := false, t1 := TaskPc.start, t2 := TaskPc.start }

/-- One atomic segment of one caller (the shared-state effect and the
caller's next program counter).

* `start`: a non-`None` cached value returns immediately; otherwise with a
  pending future the caller awaits it; otherwise it registers the future and
  invokes the fetcher.
* `fetching`: the fetcher returns — on success the value is cached, the
  future resolved and the pending slot cleared (the `finally` block); on an
  exception the future gets the exception, the pending slot is cleared, and
  the exception propagates.
* `waiting`: once the future is resolved, the awaiting caller returns its
  value (or re-raises its exception). -/
def taskStep (outcome : FetchOutcome) (s : DedupState) : TaskPc → DedupState × TaskPc
  | TaskPc.start =>
    match s.cache with
    | some v => (s, TaskPc.done (FetchOutcome.ok v))
    | none =>
      if s.pending then (s, TaskPc.waiting)
      else
        ({ s with
            pending := true
            fetchCount := s.fetchCount + 1
            refetch := s.refetch || decide (0 < s.fetchCount) }, TaskPc.fetching)
  | TaskPc.fetching =>
    match outcome with
    | FetchOutcome.ok v =>
      ({ s with
          cache := some v
          futureResult := some (FetchOutcome.ok v)
          pending := false }, TaskPc.done (FetchOutcome.ok v))
    | FetchOutcome.fail =>
      ({ s with futureResult := some FetchOutcome.fail, pending := false },
        TaskPc.done FetchOutcome.fail)
  | TaskPc.waiting =>
    match s.futureResult with
    | some r => (s, TaskPc.done r)
    | none => (s, TaskPc.waiting)
  | TaskPc.done r => (s, TaskPc.done r)

/-- Scheduler step: run one atomic segment of caller 1 (`true`) or
caller 2 (`false`). -/
def step (outcome : FetchOutcome) (which : Bool) (s : DedupState) : DedupState :=
  if which then
    let r := taskStep outcome s s.t1
    { r.1 with t1 := r.2 }
  else
    let r := taskStep outcome s s.t2
    { r.1 with t2 := r.2 }

/-- The states reachable from two concurrent `get` callers on a missing key
under every interleaving. -/
inductive Reach (outcome : FetchOutcome) : DedupState → Prop where
  | init : Reach outcome dedupInit
  | step : ∀ {s} (b : Bool), Reach outcome s → Reach outcome (step outcome b s)

/-- The inductive invariant of the deduplication protocol, stated over the
shared fields and the two callers' program counters. -/
def InvCore (outcome : FetchOutcome) (s : DedupState) (a b : TaskPc) : Prop :=
  ((a = TaskPc.fetching ∨ b = TaskPc.fetching) ↔ s.pending = true) ∧
  ¬(a = TaskPc.fetching ∧ b = TaskPc.fetching) ∧
  (∀ v, s.cache = some v → outcome = FetchOutcome.ok v) ∧
  (∀ r, s.futureResult = some r → r = outcome) ∧
  (∀ r, a = TaskPc.done r → r = outcome) ∧
  (∀ r, b = TaskPc.done r → r = outcome) ∧
  (s.refetch = false → s.fetchCount ≤ 1) ∧
  (s.fetchCount = 0 → s.cache = none ∧ s.futureResult = none ∧ s.pending = false ∧
    a = TaskPc.start ∧ b = TaskPc.start)

theorem InvCore_symm {outcome : FetchOutcome} {s : DedupState} {a b : TaskPc}
    (h : InvCore outcome s a b) : InvCore outcome s b a := by
  obtain ⟨h1, h2, h3, h4, h5, h6, h7, h8⟩ := h
  refine ⟨?_, ?_, h3, h4, h6, h5, h7, ?_⟩
  · rw [or_comm]
    exact h1
  · rw [and_comm]
    exact h2
  · intro h0
    obtain ⟨c1, c2, c3, c4, c5⟩ := h8 h0
    exact ⟨c1, c2, c3, c5, c4⟩

theorem taskStep_keeps_t1 (outcome : FetchOutcome) (s : DedupState) (a : TaskPc) :
    (taskStep outcome s a).1.t1 = s.t1 := by
  unfold taskStep
  cases a with
  | start =>
    cases s.cache with
    | some v => rfl
    | none =>
      simp only []
      split
      · rfl
      · rfl
  | fetching => cases outcome <;> rfl
  | waiting =>
    cases s.futureResult with
    | some r => rfl
    | none => rfl
  | done r => rfl

theorem taskStep_keeps_t2 (outcome : FetchOutcome) (s : DedupState) (a : TaskPc) :
    (taskStep outcome s a).1.t2 = s.t2 := by
  unfold taskStep
  cases a with
  | start =>
    cases s.cache with
    | some v => rfl
    | none =>
      simp only []
      split
      · rfl
      · rfl
  | fetching => cases outcome <;> rfl
  | waiting =>
    cases s.futureResult with
    | some r => rfl
    | none => rfl
  | done r => rfl

theorem InvCore_init (outcome : FetchOutcome) :
    InvCore outcome dedupInit TaskPc.start TaskPc.start := by
  refine ⟨?_, ?_, ?_, ?_, ?_, ?_, ?_, ?_⟩ <;> simp [dedupInit]

theorem InvCore_taskStep (outcome : FetchOutcome) (s : DedupState) (b : TaskPc) :
    ∀ a, InvCore outcome s a b →
      InvCore outcome (taskStep outcome s a).1 (taskStep outcome s a).2 b := by
  intro a h
  obtain ⟨h1, h2, h3, h4, h5, h6, h7, h8⟩ := h
  cases a with
  | start =>
    cases hc : s.cache with
    | some v =>
      simp only [taskStep, hc]
      have hov := h3 v hc
      refine ⟨?_, ?_, h3, h4, ?_, h6, h7, ?_⟩
      · constructor
        · rintro (hx | hx)
          · exact absurd hx (by simp)
          · exact h1.mp (Or.inr hx)
        · intro hp
          rcases h1.mpr hp with hx | hx
          · exact absurd hx (by simp)
          · exact Or.inr hx
      · rintro ⟨hx, _⟩
        exact absurd hx (by simp)
      · intro r hr
        rw [← TaskPc.done.inj hr]
        exact hov.symm
      · intro h0
        obtain ⟨hcn, _, _, _, _⟩ := h8 h0
        rw [hc] at hcn
        exact Option.noConfusion hcn
    | none =>
      by_cases hp : s.pending = true
      · simp only [taskStep, hc, if_pos hp]
        refine ⟨?_, ?_, h3, h4, ?_, h6, h7, ?_⟩
        · constructor
          · rintro (hx | hx)
            · exact absurd hx (by simp)
            · exact h1.mp (Or.inr hx)
          · intro hp2
            rcases h1.mpr hp2 with hx | hx
            · exact absurd hx (by simp)
            · exact Or.inr hx
        · rintro ⟨hx, _⟩
          exact absurd hx (by simp)
        · intro r hr
          exact absurd hr (by simp)
        · intro h0
          obtain ⟨_, _, hpf, _, _⟩ := h8 h0
          rw [hpf] at hp
          exact absurd hp (by simp)
      · simp only [taskStep, hc, if_neg hp]
        have hbnf : b ≠ TaskPc.fetching := fun hx => hp (h1.mp (Or.inr hx))
        refine ⟨?_, ?_, ?_, h4, ?_, h6, ?_, ?_⟩
        · constructor
          · intro _
            rfl
          · intro _
            exact Or.inl rfl
        · rintro ⟨_, hx⟩
          exact hbnf hx
        · intro v hv
          exact Option.noConfusion hv
        · intro r hr
          exact absurd hr (by simp)
        · intro hrf
          have hd : decide (0 < s.fetchCount) = false := by
            cases hb : decide (0 < s.fetchCount)
            · rfl
            · rw [hb] at hrf
              simp at hrf
          have hz : ¬ 0 < s.fetchCount := of_decide_eq_false hd
          simp only []
          omega
        · intro h0
          exact absurd h0 (Nat.succ_ne_zero _)
  | fetching =>
    have hbnf : b ≠ TaskPc.fetching := fun hx => h2 ⟨rfl, hx⟩
    have hcount : s.fetchCount ≠ 0 := by
      intro h0
      obtain ⟨_, _, _, ha, _⟩ := h8 h0
      exact absurd ha (by simp)
    cases outcome with
    | ok v =>
      simp only [taskStep]
      refine ⟨?_, ?_, ?_, ?_, ?_, h6, h7, ?_⟩
      · constructor
        · rintro (hx | hx)
          · exact absurd hx (by simp)
          · exact absurd hx hbnf
        · intro hp2
          exact absurd hp2 (by simp)
      · rintro ⟨hx, _⟩
        exact absurd hx (by simp)
      · intro w hw
        rw [Option.some.inj hw]
      · intro r hr
        exact (Option.some.inj hr).symm
      · intro r hr
        exact (TaskPc.done.inj hr).symm
      · intro h0
        exact absurd h0 hcount
    | fail =>
      simp only [taskStep]
      refine ⟨?_, ?_, h3, ?_, ?_, h6, h7, ?_⟩
      · constructor
        · rintro (hx | hx)
          · exact absurd hx (by simp)
          · exact absurd hx hbnf
        · intro hp2
          exact absurd hp2 (by simp)
      · rintro ⟨hx, _⟩
        exact absurd hx (by simp)
      · intro r hr
        exact (Option.some.inj hr).symm
      · intro r hr
        exact (TaskPc.done.inj hr).symm
      · intro h0
        exact absurd h0 hcount
  | waiting =>
    cases hf : s.futureResult with
    | some r0 =>
      simp only [taskStep, hf]
      have hro := h4 r0 hf
      refine ⟨?_, ?_, h3, h4, ?_, h6, h7, ?_⟩
      · constructor
        · rintro (hx | hx)
          · exact absurd hx (by simp)
          · exact h1.mp (Or.inr hx)
        · intro hp2
          rcases h1.mpr hp2 with hx | hx
          · exact absurd hx (by simp)
          · exact Or.inr hx
      · rintro ⟨hx, _⟩
        exact absurd hx (by simp)
      · intro r hr
        rw [← TaskPc.done.inj hr]
        exact hro
      · intro h0
        obtain ⟨_, hfn, _, _, _⟩ := h8 h0
        rw [hf] at hfn
        exact Option.noConfusion hfn
    | none =>
      simp only [taskStep, hf]
      exact ⟨h1, h2, h3, h4, h5, h6, h7, h8⟩
  | done r =>
    simp only [taskStep]
    exact ⟨h1, h2, h3, h4, h5, h6, h7, h8⟩

theorem reach_invariant (outcome : FetchOutcome) :
    ∀ {s : DedupState}, Reach outcome s → InvCore outcome s s.t1 s.t2 := by
  intro s h
  induction h with
  | init => exact InvCore_init outcome
  | step b hr ih =>
    rename_i s'
    cases b with
    | true =>
      have h' := InvCore_taskStep outcome s' s'.t2 s'.t1 ih
      have ht2 : (step outcome true s').t2 = s'.t2 := taskStep_keeps_t2 outcome s' s'.t1
      rw [ht2]
      exact h'
    | false =>
      have h' := InvCore_symm (InvCore_taskStep outcome s' s'.t1 s'.t2 (InvCore_symm ih))
      have ht1 : (step outcome false s').t1 = s'.t1 := taskStep_keeps_t1 outcome s' s'.t2
      rw [ht1]
      exact h'

/-- C4: under every interleaving of two concurrent `get` callers for the
same missing key, if both callers have completed and no sequential re-fetch
occurred (the callers' misses overlapped, which is the claim's scenario),
then the fetcher ran exactly once, both callers received the identical
result — the identical value or the identical error — and the pending-fetch
slot for the key has been cleared. -/
theorem dedup_single_fetch (outcome : FetchOutcome) (s : DedupState)
    (h : Reach outcome s) (r1 r2 : FetchOutcome)
    (h1 : s.t1 = TaskPc.done r1) (h2 : s.t2 = TaskPc.done r2)
    (hseq : s.refetch = false) :
    r1 = r2 ∧ s.fetchCount = 1 ∧ s.pending = false := by
  have hi := reach_invariant outcome h
  rw [h1, h2] at hi
  obtain ⟨i1, i2, i3, i4, i5, i6, i7, i8⟩ := hi
  have hr1 := i5 r1 rfl
  have hr2 := i6 r2 rfl
  refine ⟨hr1.trans hr2.symm, ?_, ?_⟩
  · have hle := i7 hseq
    rcases Nat.eq_zero_or_pos s.fetchCount with h0 | hpos
    · obtain ⟨_, _, _, habs, _⟩ := i8 h0
      exact absurd habs (by simp)
    · omega
  · cases hb : s.pending
    · rfl
    · rcases i1.mpr hb with hx | hx <;> exact absurd hx (by simp)

theorem dedup_single_fetch_witness :
    (step (FetchOutcome.ok 5) false (step (FetchOutcome.ok 5) true
        (step (FetchOutcome.ok 5) false (step (FetchOutcome.ok 5) true dedupInit)))).t1 =
        TaskPc.done (FetchOutcome.ok 5) ∧
      (step (FetchOutcome.ok 5) false (step (FetchOutcome.ok 5) true
        (step (FetchOutcome.ok 5) false (step (FetchOutcome.ok 5) true dedupInit)))).t2 =
        TaskPc.done (FetchOutcome.ok 5) ∧
      (step (FetchOutcome.ok 5) false (step (FetchOutcome.ok 5) true
        (step (FetchOutcome.ok 5) false (step (FetchOutcome.ok 5) true dedupInit)))).fetchCount =
        1 ∧
      (step (FetchOutcome.ok 5) false (step (FetchOutcome.ok 5) true
        (step (FetchOutcome.ok 5) false (step (FetchOutcome.ok 5) true dedupInit)))).pending =
        false := by
  have h := dedup_single_fetch (FetchOutcome.ok 5) _
    (Reach.step false (Reach.step true (Reach.step false (Reach.step true Reach.init))))
    (FetchOutcome.ok 5) (FetchOutcome.ok 5) (by decide) (by decide) (by decide)
  exact ⟨by decide, by decide, h.2.1, h.2.2⟩
